import Mathlib

/-!
Verification of the LSH line editor and completion engine (src/main.c)

Shallow embedding of the interactive line editor of `src/main.c`
(`lsh_read_line`, `find_matching_commands`, `str_in_array`) together with
proofs about it.  C strings (NUL-free) are modelled as `List Char`;
directory listings are modelled through the external interface the spec
names: tuples of (name, is-directory, executable-by-caller), where the
is-directory flag plays the role of `d_type == DT_DIR` and the executable
flag is the `executable_by_caller` bit of the spec's filesystem interface
(the C code never reads an executable bit; the field is carried so that
spec-side statements about executability can be expressed).
-/

/-- C strings (no embedded NUL) are modelled as lists of characters. -/
abbrev Str := List Char

/-- One `struct dirent` as seen through `readdir`: the entry name, whether
`d_type == DT_DIR`, and whether the calling user may execute it (the last
field is part of the spec's filesystem interface; `main.c` never consults
it). -/
structure Dirent where
  name : Str
  isDir : Bool
  exec : Bool
deriving DecidableEq, Repr

/-- The filesystem as the completion engine sees it: `readdir` yields the
entries of a directory in storage order, or `none` when `opendir` fails. -/
structure Fs where
  readdir : Str → Option (List Dirent)

/-- Model of `str_in_array` (src/main.c lines 76-83): linear scan with `strcmp`. -/
def str_in_array (s : Str) (a : List Str) : Bool :=
  a.any (fun t => t = s)

/-- Index of the last occurrence of `c` (models `strrchr`):
`none` when `c` does not occur. -/
def lastIdxOf (c : Char) : Str → Option Nat
  | [] => none
  | x :: xs =>
    match lastIdxOf c xs with
    | some i => some (i + 1)
    | none => if x = c then some 0 else none

/-- The string `"cd "`, the prefix tested by `strncmp(partial, "cd ", 3)`. -/
def cdPrefix : Str := ['c', 'd', ' ']

/-- Truncation of `snprintf(match, n, ...)`: it writes at most `n - 1` characters. -/
def snprintfTrunc (n : Nat) (s : Str) : Str := s.take (n - 1)

/-- The candidate string built in the `is_cd` branch
(src/main.c lines 132-141).  With a slash the allocation is
`strlen(search_dir) + strlen(name) + 2` bytes, two bytes short of
`"cd " + search_dir + name` plus NUL, so `snprintf` truncates. -/
def cdMatchStr (hasSlash : Bool) (searchDir name : Str) : Str :=
  if hasSlash then
    snprintfTrunc (searchDir.length + name.length + 2) (cdPrefix ++ searchDir ++ name)
  else
    snprintfTrunc (name.length + 4) (cdPrefix ++ name)

/-- The candidate string built in the non-`cd` branch
(src/main.c lines 151-158): `search_dir` verbatim followed by the entry
name (allocation `strlen(search_dir) + strlen(name) + 2` exactly fits),
or `strdup(name)` when the token had no slash. -/
def plainMatchStr (hasSlash : Bool) (searchDir name : Str) : Str :=
  if hasSlash then searchDir ++ name else name

/-- The directory-listing phase of `find_matching_commands`
(src/main.c lines 121-168): walk the listing while `count < 100`,
skip `"."` and `".."`, and in the `is_cd` branch keep directory entries
with the search-term prefix (candidate `"cd" ...`), otherwise keep
non-directory entries with the prefix; duplicates are dropped via
`str_in_array`. -/
def dirPhase (is_cd hasSlash : Bool) (searchDir searchTerm : Str) :
    List Dirent → List Str → List Str
  | [], acc => acc
  | e :: es, acc =>
    if acc.length < 100 then
      if e.name = ['.'] ∨ e.name = ['.', '.'] then
        dirPhase is_cd hasSlash searchDir searchTerm es acc
      else if is_cd then
        if e.isDir && searchTerm.isPrefixOf e.name then
          let m := cdMatchStr hasSlash searchDir e.name
          dirPhase is_cd hasSlash searchDir searchTerm es
            (if str_in_array m acc then acc else acc ++ [m])
        else
          dirPhase is_cd hasSlash searchDir searchTerm es acc
      else
        if searchTerm.isPrefixOf e.name && !e.isDir then
          let m := plainMatchStr hasSlash searchDir e.name
          dirPhase is_cd hasSlash searchDir searchTerm es
            (if str_in_array m acc then acc else acc ++ [m])
        else
          dirPhase is_cd hasSlash searchDir searchTerm es acc
    else acc

/-- One PATH directory of the PATH-search phase
(src/main.c lines 184-191): keep entries with the `partial` prefix whose
`d_type` is not `DT_DIR`, deduplicated, while `count < 100`. -/
def pathDirPhase (partial_ : Str) : List Dirent → List Str → List Str
  | [], acc => acc
  | e :: es, acc =>
    if acc.length < 100 then
      if partial_.isPrefixOf e.name && !e.isDir then
        pathDirPhase partial_ es
          (if str_in_array e.name acc then acc else acc ++ [e.name])
      else
        pathDirPhase partial_ es acc
    else acc

/-- The PATH-search phase (src/main.c lines 181-195): visit the PATH
directories in order while `count < 100`; a directory that fails to open
contributes nothing. -/
def pathPhase (partial_ : Str) (fs : Fs) : List Str → List Str → List Str
  | [], acc => acc
  | d :: ds, acc =>
    if acc.length < 100 then
      match fs.readdir d with
      | some l => pathPhase partial_ fs ds (pathDirPhase partial_ l acc)
      | none => pathPhase partial_ fs ds acc
    else acc

/-- Model of the `strtok(path_copy, ":")` iteration: the maximal nonempty
colon-separated segments of PATH, in order. -/
def strtokColon (p : Str) : List Str :=
  (p.splitOn ':').filter (fun t => t ≠ [])

/-- Model of `struct completion_result` (src/main.c lines 71-74); `count` is the
length of `matches`. -/
structure completion_result where
  matches_ : List Str
deriving DecidableEq, Repr

/-- Model of `find_matching_commands` (src/main.c lines 85-201).  `partial_` is the
whole line buffer; `path` is `getenv("PATH")`.  An empty token returns the
empty set.  A `"cd "` prefix switches to directory-only completion; a last
slash in the search term fixes the directory searched and the verbatim
prefix; the PATH phase runs only for tokens that are neither `cd` nor
slash-containing. -/
def find_matching_commands (partial_ : Str) (fs : Fs) (path : Option Str) :
    completion_result :=
  if partial_.length = 0 then ⟨[]⟩
  else
    let is_cd := cdPrefix.isPrefixOf partial_
    let search_term := if is_cd then partial_.drop 3 else partial_
    match lastIdxOf '/' search_term with
    | some i =>
      let search_dir := search_term.take (i + 1)
      let st2 := search_term.drop (i + 1)
      match fs.readdir search_dir with
      | some l => ⟨dirPhase is_cd true search_dir st2 l []⟩
      | none => ⟨[]⟩
    | none =>
      let acc1 :=
        match fs.readdir ['.'] with
        | some l => dirPhase is_cd false [] search_term l []
        | none => []
      if is_cd then ⟨acc1⟩
      else
        match path with
        | none => ⟨acc1⟩
        | some p => ⟨pathPhase partial_ fs (strtokColon p) acc1⟩

/-!
The line editor: (`lsh_read_line`, src/main.c lines 311-448)

The editing state is the live content of `buffer` (the characters at
indices `0 .. position-1`), the cursor offset `cursor_pos`, and the
allocated capacity `bufsize`.  `position` is `buffer.length`.
-/

/-- The editor state: live buffer content (`buffer[0..position-1]`),
`cursor_pos`, and `bufsize`.  `position` is `buffer.length`. -/
structure EditState where
  buffer : Str
  cursor : Nat
  bufsize : Nat
deriving DecidableEq, Repr

/-- Insert at the cursor (src/main.c lines 419-426): the shift loop moves
`buffer[cursor_pos .. position-1]` right one slot, the character lands at
`cursor_pos`, and `position` and `cursor_pos` are incremented.  On the
live region this is `take cursor ++ [c] ++ drop cursor`. -/
def insertAtCursor (c : Char) (st : EditState) : EditState :=
  { st with
    buffer := st.buffer.take st.cursor ++ [c] ++ st.buffer.drop st.cursor
    cursor := st.cursor + 1 }

/-- Backspace (src/main.c lines 353-371): when `cursor_pos > 0` the shift
loop moves `buffer[cursor_pos .. position-1]` left one slot, erasing the
character at `cursor_pos - 1`; `position` and `cursor_pos` decrement.
No-op at the left boundary. -/
def backspaceOp (st : EditState) : EditState :=
  if st.cursor > 0 then
    { st with
      buffer := st.buffer.take (st.cursor - 1) ++ st.buffer.drop st.cursor
      cursor := st.cursor - 1 }
  else st

/-- Right arrow (src/main.c lines 377-381): `cursor_pos++` only when
`cursor_pos < position`. -/
def moveRight (st : EditState) : EditState :=
  if st.cursor < st.buffer.length then { st with cursor := st.cursor + 1 } else st

/-- Left arrow (src/main.c lines 382-387): `cursor_pos--` only when
`cursor_pos > 0`. -/
def moveLeft (st : EditState) : EditState :=
  if st.cursor > 0 then { st with cursor := st.cursor - 1 } else st

/-- Tab (src/main.c lines 389-418): run `find_matching_commands` on the
current buffer; on exactly one candidate, `strncpy` it over the buffer
(at most `bufsize - 1` characters) and set `position = strlen(buffer)`,
`cursor_pos = position`.  Zero or several candidates leave the state
unchanged (they only print). -/
def tabStep (fs : Fs) (path : Option Str) (st : EditState) : EditState :=
  match (find_matching_commands st.buffer fs path).matches_ with
  | [m] =>
    { st with
      buffer := m.take (st.bufsize - 1)
      cursor := (m.take (st.bufsize - 1)).length }
  | _ => st

/-- The growth check at the bottom of the loop (src/main.c lines 438-445),
assuming `realloc` succeeds: when `position >= bufsize`, capacity grows by
`LSH_RL_BUFSIZE` (1024). -/
def growPure (st : EditState) : EditState :=
  if st.buffer.length ≥ st.bufsize then { st with bufsize := st.bufsize + 1024 } else st

/-- The growth check with a fallible allocator: `alloc n` tells whether
`realloc` to `n` bytes succeeds; `none` is the
`fprintf; exit(EXIT_FAILURE)` path (src/main.c lines 441-444), which does
not touch the terminal settings. -/
def growCheck (alloc : Nat → Bool) (st : EditState) : Option EditState :=
  if st.buffer.length ≥ st.bufsize then
    if alloc (st.bufsize + 1024) then some { st with bufsize := st.bufsize + 1024 }
    else none
  else some st

/-- One non-terminating iteration of the read loop, before the growth
check: given the byte `c` just read (not `EOF`, not `'\n'`) and the rest
of the input, produce the remaining input and the next state.  Escape
handling mirrors src/main.c lines 372-388: `getchar` inside the escape
branch consumes further bytes (or hits end of input). -/
def stepEdit (fs : Fs) (path : Option Str) (c : Nat) (rest : List Nat)
    (st : EditState) : List Nat × EditState :=
  if c = 127 then (rest, backspaceOp st)
  else if c = 27 then
    match rest with
    | [] => ([], st)
    | b :: rest2 =>
      if b = 91 then
        match rest2 with
        | [] => ([], st)
        | d :: rest3 =>
          if d = 67 then (rest3, moveRight st)
          else if d = 68 then (rest3, moveLeft st)
          else (rest3, st)
      else (rest2, st)
  else if c = 9 then (rest, tabStep fs path st)
  else (rest, insertAtCursor (Char.ofNat c) st)

/-- Outcome of one `lsh_read_line` call: the returned line, or the
`exit(EXIT_FAILURE)` taken when buffer growth fails. -/
inductive RunResult where
  | line (s : Str)
  | allocAbort
deriving DecidableEq, Repr

/-- Observable result of a read: the outcome plus how many times the
saved terminal settings were restored
(`tcsetattr(STDIN_FILENO, TCSANOW, &old_termios)`, src/main.c line 350 —
the only restore site in `lsh_read_line`). -/
structure RunOut where
  result : RunResult
  restores : Nat
deriving DecidableEq, Repr

/-- The read loop of `lsh_read_line` (src/main.c lines 345-446) after raw
mode has been entered.  `input` is the byte stream of the terminal;
exhaustion of the list is `getchar() == EOF`.  `EOF` and `'\n'` (10) both
terminate by restoring the terminal (one restore) and returning the
buffer; the allocation-failure path aborts with zero restores. -/
def lshLoop (fs : Fs) (path : Option Str) (alloc : Nat → Bool) :
    List Nat → EditState → RunOut
  | [], st => ⟨.line st.buffer, 1⟩
  | c :: rest, st =>
    if c = 10 then ⟨.line st.buffer, 1⟩
    else
      let p := stepEdit fs path c rest st
      match growCheck alloc p.2 with
      | none => ⟨.allocAbort, 0⟩
      | some st2 => lshLoop fs path alloc p.1 st2
termination_by input => input.length
decreasing_by
  have hle : (stepEdit fs path c rest st).1.length ≤ rest.length := by
    unfold stepEdit
    split
    · simp
    split
    · cases rest with
      | nil => simp
      | cons b rest2 =>
        simp only
        split
        · cases rest2 with
          | nil => simp
          | cons d rest3 =>
            simp only
            split
            · simp; omega
            split <;> (simp; omega)
        · simp
    split <;> simp
  exact Nat.lt_succ_of_le hle

/-- Model of `lsh_read_line` (src/main.c lines 311-448, `LSH_USE_STD_GETLINE` not
defined): allocate a 1024-byte buffer, save the terminal settings and
enter raw mode (lines 340-343), then run the loop on the empty state. -/
def lsh_read_line (fs : Fs) (path : Option Str) (alloc : Nat → Bool)
    (input : List Nat) : RunOut :=
  lshLoop fs path alloc input ⟨[], 0, 1024⟩

/-- The editing operations of the spec's Line Buffer & Cursor Model, as
the loop performs them: each key event's edit followed by the iteration's
growth check (allocation assumed to succeed). -/
inductive EditOp where
  | insert (c : Char)
  | delete
  | moveL
  | moveR
deriving DecidableEq, Repr

/-- Apply one editing operation, growth check included, as one loop
iteration of `lsh_read_line` does. -/
def applyOp (op : EditOp) (st : EditState) : EditState :=
  match op with
  | .insert c => growPure (insertAtCursor c st)
  | .delete => growPure (backspaceOp st)
  | .moveL => growPure (moveLeft st)
  | .moveR => growPure (moveRight st)

/-- Apply a sequence of editing operations, first one first. -/
def applyOps (ops : List EditOp) (st : EditState) : EditState :=
  ops.foldl (fun s op => applyOp op s) st

/-- The LineBuffer invariant `0 ≤ cursor ≤ length ≤ capacity` (the first
inequality is vacuous over `Nat`). -/
def BufInv (st : EditState) : Prop :=
  st.cursor ≤ st.buffer.length ∧ st.buffer.length ≤ st.bufsize

/-!
Concrete fixtures and the spec-side token replacement.

`replace_token_spec` is the one definition translated from the spec's
words rather than from the source: claim C4 describes completion
acceptance as `replace_token(new_text)`, and the definition below is that
description, used only to compare against what the code does.
-/

/-- Modelled from the spec: `replace_token(new_text)` "replaces the
substring from the position after the last whitespace character up to
`length` (or the whole buffer if no whitespace) with `new_text`"
(spec §4.2).  This is the spec's claimed acceptance behaviour, not the
code's. -/
def replace_token_spec (buf newText : Str) : Str :=
  match lastIdxOf ' ' buf with
  | some i => buf.take (i + 1) ++ newText
  | none => newText

/-- A filesystem on which every `opendir` fails. -/
def fsNone : Fs := ⟨fun _ => none⟩

/-- Fixture: the current directory holds a single directory `ab`. -/
def fsCdAb : Fs :=
  ⟨fun d => if d = ['.'] then some [⟨['a', 'b'], true, true⟩] else none⟩

/-- Fixture: an empty current directory, and a PATH directory `/b` whose
single entry `ls` is a regular file the calling user may NOT execute. -/
def fsPathLs : Fs :=
  ⟨fun d =>
    if d = ['.'] then some []
    else if d = ['/', 'b'] then some [⟨['l', 's'], false, false⟩]
    else none⟩

/-- Fixture: the current directory holds a directory `foo` and a regular
file `fob`, both matching the token `fo`. -/
def fsFooFob : Fs :=
  ⟨fun d =>
    if d = ['.'] then
      some [⟨['f', 'o', 'o'], true, true⟩, ⟨['f', 'o', 'b'], false, true⟩]
    else none⟩

/-- Fixture: directory `x/` holds a single regular file `ab`. -/
def fsXdir : Fs :=
  ⟨fun d => if d = ['x', '/'] then some [⟨['a', 'b'], false, true⟩] else none⟩

/-- Fixture: the current directory marks `.` and `..` as directory-typed
entries, next to a regular file `ab`; `/b` on PATH does the same. -/
def fsDots : Fs :=
  ⟨fun d =>
    if d = ['.'] then
      some [⟨['.'], true, true⟩, ⟨['.', '.'], true, true⟩, ⟨['a', 'b'], false, true⟩]
    else if d = ['/', 'b'] then
      some [⟨['.'], true, true⟩, ⟨['.', '.'], true, true⟩, ⟨['a', 'c'], false, true⟩]
    else none⟩

/-!
Helper lemmas about the completion engine.
-/

theorem str_in_array_iff (s : Str) (a : List Str) :
    str_in_array s a = true ↔ s ∈ a := by
  simp only [str_in_array, List.any_eq_true, decide_eq_true_eq]
  constructor
  · rintro ⟨x, hx, rfl⟩; exact hx
  · intro hx; exact ⟨s, hx, rfl⟩

theorem mem_addIfNew {m s : Str} {acc : List Str}
    (h : m ∈ (if str_in_array s acc then acc else acc ++ [s])) :
    m ∈ acc ∨ m = s := by
  by_cases hs : str_in_array s acc <;> simp [hs] at h
  · exact Or.inl h
  · exact h

theorem addIfNew_nodup {s : Str} {acc : List Str} (h : acc.Nodup) :
    (if str_in_array s acc then acc else acc ++ [s]).Nodup := by
  by_cases hs : str_in_array s acc <;> simp [hs]
  · exact h
  · rw [str_in_array_iff] at hs
    refine List.Nodup.append h (List.nodup_singleton s) ?_
    intro a ha hb
    simp at hb
    subst hb
    exact hs ha

theorem addIfNew_length {s : Str} {acc : List Str} (h : acc.length < 100) :
    (if str_in_array s acc then acc else acc ++ [s]).length ≤ 100 := by
  by_cases hs : str_in_array s acc <;> simp [hs] <;> omega

theorem addIfNew_extendsAcc (s : Str) (acc : List Str) :
    acc <+: (if str_in_array s acc then acc else acc ++ [s]) := by
  by_cases hs : str_in_array s acc <;> simp [hs]

theorem lastIdxOf_get (c : Char) : ∀ (l : Str) (i : Nat),
    lastIdxOf c l = some i → ∃ h : i < l.length, l.get ⟨i, h⟩ = c := by
  intro l
  induction l with
  | nil => intro i h; simp [lastIdxOf] at h
  | cons x xs ih =>
    intro i h
    rw [lastIdxOf] at h
    match hx : lastIdxOf c xs with
    | some j =>
      rw [hx] at h
      simp at h
      obtain ⟨hj, hget⟩ := ih j hx
      subst h
      exact ⟨by simpa using Nat.succ_lt_succ hj, by simpa using hget⟩
    | none =>
      rw [hx] at h
      by_cases hxc : x = c <;> simp [hxc] at h
      subst h
      exact ⟨by simp, by simpa using hxc⟩

theorem lastIdxOf_mem {c : Char} {l : Str} {i : Nat}
    (h : lastIdxOf c l = some i) : c ∈ l.take (i + 1) := by
  obtain ⟨hi, hget⟩ := lastIdxOf_get c l i h
  rw [← hget]
  exact List.mem_take_iff_getElem.mpr ⟨i, by simpa using hi, by simp⟩

theorem dirPhase_nodup (is_cd hs : Bool) (sd stm : Str) :
    ∀ (l : List Dirent) (acc : List Str), acc.Nodup →
      (dirPhase is_cd hs sd stm l acc).Nodup := by
  intro l
  induction l with
  | nil => intro acc h; rw [dirPhase]; exact h
  | cons e es ih =>
    intro acc h
    rw [dirPhase]
    split
    · split
      · exact ih _ h
      · split
        · split
          · exact ih _ (addIfNew_nodup h)
          · exact ih _ h
        · split
          · exact ih _ (addIfNew_nodup h)
          · exact ih _ h
    · exact h

theorem pathDirPhase_nodup (p : Str) :
    ∀ (l : List Dirent) (acc : List Str), acc.Nodup →
      (pathDirPhase p l acc).Nodup := by
  intro l
  induction l with
  | nil => intro acc h; rw [pathDirPhase]; exact h
  | cons e es ih =>
    intro acc h
    rw [pathDirPhase]
    split
    · split
      · exact ih _ (addIfNew_nodup h)
      · exact ih _ h
    · exact h

theorem pathPhase_nodup (p : Str) (fs : Fs) :
    ∀ (ds : List Str) (acc : List Str), acc.Nodup →
      (pathPhase p fs ds acc).Nodup := by
  intro ds
  induction ds with
  | nil => intro acc h; rw [pathPhase]; exact h
  | cons d ds ih =>
    intro acc h
    rw [pathPhase]
    split
    · split
      · exact ih _ (pathDirPhase_nodup p _ _ h)
      · exact ih _ h
    · exact h

theorem dirPhase_length (is_cd hs : Bool) (sd stm : Str) :
    ∀ (l : List Dirent) (acc : List Str), acc.length ≤ 100 →
      (dirPhase is_cd hs sd stm l acc).length ≤ 100 := by
  intro l
  induction l with
  | nil => intro acc h; rw [dirPhase]; exact h
  | cons e es ih =>
    intro acc h
    rw [dirPhase]
    by_cases hcap : acc.length < 100
    · rw [if_pos hcap]
      split
      · exact ih _ h
      · split
        · split
          · exact ih _ (addIfNew_length hcap)
          · exact ih _ h
        · split
          · exact ih _ (addIfNew_length hcap)
          · exact ih _ h
    · rw [if_neg hcap]; exact h

theorem pathDirPhase_length (p : Str) :
    ∀ (l : List Dirent) (acc : List Str), acc.length ≤ 100 →
      (pathDirPhase p l acc).length ≤ 100 := by
  intro l
  induction l with
  | nil => intro acc h; rw [pathDirPhase]; exact h
  | cons e es ih =>
    intro acc h
    rw [pathDirPhase]
    by_cases hcap : acc.length < 100
    · rw [if_pos hcap]
      split
      · exact ih _ (addIfNew_length hcap)
      · exact ih _ h
    · rw [if_neg hcap]; exact h

theorem pathPhase_length (p : Str) (fs : Fs) :
    ∀ (ds : List Str) (acc : List Str), acc.length ≤ 100 →
      (pathPhase p fs ds acc).length ≤ 100 := by
  intro ds
  induction ds with
  | nil => intro acc h; rw [pathPhase]; exact h
  | cons d ds ih =>
    intro acc h
    rw [pathPhase]
    split
    · split
      · exact ih _ (pathDirPhase_length p _ _ h)
      · exact ih _ h
    · exact h

theorem dirPhase_extendsAcc (is_cd hs : Bool) (sd stm : Str) :
    ∀ (l : List Dirent) (acc : List Str),
      acc <+: dirPhase is_cd hs sd stm l acc := by
  intro l
  induction l with
  | nil => intro acc; rw [dirPhase]
  | cons e es ih =>
    intro acc
    rw [dirPhase]
    split
    · split
      · exact ih _
      · split
        · split
          · exact (addIfNew_extendsAcc _ _).trans (ih _)
          · exact ih _
        · split
          · exact (addIfNew_extendsAcc _ _).trans (ih _)
          · exact ih _
    · exact List.prefix_refl _

theorem pathDirPhase_extendsAcc (p : Str) :
    ∀ (l : List Dirent) (acc : List Str), acc <+: pathDirPhase p l acc := by
  intro l
  induction l with
  | nil => intro acc; rw [pathDirPhase]
  | cons e es ih =>
    intro acc
    rw [pathDirPhase]
    split
    · split
      · exact (addIfNew_extendsAcc _ _).trans (ih _)
      · exact ih _
    · exact List.prefix_refl _

theorem pathPhase_extendsAcc (p : Str) (fs : Fs) :
    ∀ (ds : List Str) (acc : List Str), acc <+: pathPhase p fs ds acc := by
  intro ds
  induction ds with
  | nil => intro acc; rw [pathPhase]
  | cons d ds ih =>
    intro acc
    rw [pathPhase]
    split
    · split
      · exact (pathDirPhase_extendsAcc p _ _).trans (ih _)
      · exact ih _
    · exact List.prefix_refl _

theorem dirPhase_sound (is_cd hs : Bool) (sd stm : Str) :
    ∀ (l : List Dirent) (acc : List Str) (m : Str),
      m ∈ dirPhase is_cd hs sd stm l acc →
      m ∈ acc ∨ ∃ e ∈ l, e.name ≠ ['.'] ∧ e.name ≠ ['.', '.'] ∧
        stm.isPrefixOf e.name = true ∧
        ((is_cd = true ∧ e.isDir = true ∧ m = cdMatchStr hs sd e.name) ∨
         (is_cd = false ∧ e.isDir = false ∧ m = plainMatchStr hs sd e.name)) := by
  intro l
  induction l with
  | nil =>
    intro acc m hm
    rw [dirPhase] at hm
    exact Or.inl hm
  | cons e es ih =>
    intro acc m hm
    rw [dirPhase] at hm
    have tailCase :
        m ∈ dirPhase is_cd hs sd stm es acc →
        m ∈ acc ∨ ∃ e' ∈ e :: es, e'.name ≠ ['.'] ∧ e'.name ≠ ['.', '.'] ∧
          stm.isPrefixOf e'.name = true ∧
          ((is_cd = true ∧ e'.isDir = true ∧ m = cdMatchStr hs sd e'.name) ∨
           (is_cd = false ∧ e'.isDir = false ∧ m = plainMatchStr hs sd e'.name)) := by
      intro h
      rcases ih acc m h with h1 | ⟨e', he', rest⟩
      · exact Or.inl h1
      · exact Or.inr ⟨e', List.mem_cons_of_mem _ he', rest⟩
    by_cases hcap : acc.length < 100
    · rw [if_pos hcap] at hm
      by_cases hdot : e.name = ['.'] ∨ e.name = ['.', '.']
      · rw [if_pos hdot] at hm
        exact tailCase hm
      · rw [if_neg hdot] at hm
        push_neg at hdot
        by_cases hcd : is_cd = true
        · rw [if_pos hcd] at hm
          by_cases hsel : (e.isDir && stm.isPrefixOf e.name) = true
          · rw [if_pos hsel] at hm
            rcases ih _ m hm with h1 | ⟨e', he', rest⟩
            · rcases mem_addIfNew h1 with h2 | h2
              · exact Or.inl h2
              · rw [Bool.and_eq_true] at hsel
                exact Or.inr ⟨e, List.mem_cons_self .., hdot.1, hdot.2, hsel.2,
                  Or.inl ⟨hcd, hsel.1, h2⟩⟩
            · exact Or.inr ⟨e', List.mem_cons_of_mem _ he', rest⟩
          · rw [if_neg hsel] at hm
            exact tailCase hm
        · rw [if_neg hcd] at hm
          by_cases hsel : (stm.isPrefixOf e.name && !e.isDir) = true
          · rw [if_pos hsel] at hm
            rcases ih _ m hm with h1 | ⟨e', he', rest⟩
            · rcases mem_addIfNew h1 with h2 | h2
              · exact Or.inl h2
              · rw [Bool.and_eq_true, Bool.not_eq_true'] at hsel
                exact Or.inr ⟨e, List.mem_cons_self .., hdot.1, hdot.2, hsel.1,
                  Or.inr ⟨Bool.not_eq_true is_cd ▸ hcd, hsel.2, h2⟩⟩
            · exact Or.inr ⟨e', List.mem_cons_of_mem _ he', rest⟩
          · rw [if_neg hsel] at hm
            exact tailCase hm
    · rw [if_neg hcap] at hm
      exact Or.inl hm

theorem pathDirPhase_sound (p : Str) :
    ∀ (l : List Dirent) (acc : List Str) (m : Str),
      m ∈ pathDirPhase p l acc →
      m ∈ acc ∨ (p.isPrefixOf m = true ∧ ∃ e ∈ l, e.name = m ∧ e.isDir = false) := by
  intro l
  induction l with
  | nil =>
    intro acc m hm
    rw [pathDirPhase] at hm
    exact Or.inl hm
  | cons e es ih =>
    intro acc m hm
    rw [pathDirPhase] at hm
    have tailCase :
        m ∈ pathDirPhase p es acc →
        m ∈ acc ∨ (p.isPrefixOf m = true ∧ ∃ e' ∈ e :: es, e'.name = m ∧ e'.isDir = false) := by
      intro h
      rcases ih acc m h with h1 | ⟨hp, e', he', rest⟩
      · exact Or.inl h1
      · exact Or.inr ⟨hp, e', List.mem_cons_of_mem _ he', rest⟩
    by_cases hcap : acc.length < 100
    · rw [if_pos hcap] at hm
      by_cases hsel : (p.isPrefixOf e.name && !e.isDir) = true
      · rw [if_pos hsel] at hm
        rcases ih _ m hm with h1 | ⟨hp, e', he', rest⟩
        · rcases mem_addIfNew h1 with h2 | h2
          · exact Or.inl h2
          · rw [Bool.and_eq_true, Bool.not_eq_true'] at hsel
            exact Or.inr ⟨h2 ▸ hsel.1, e, List.mem_cons_self .., h2.symm, hsel.2⟩
        · exact Or.inr ⟨hp, e', List.mem_cons_of_mem _ he', rest⟩
      · rw [if_neg hsel] at hm
        exact tailCase hm
    · rw [if_neg hcap] at hm
      exact Or.inl hm

theorem pathPhase_sound (p : Str) (fs : Fs) :
    ∀ (ds : List Str) (acc : List Str) (m : Str),
      m ∈ pathPhase p fs ds acc →
      m ∈ acc ∨ (p.isPrefixOf m = true ∧
        ∃ d ∈ ds, ∃ l, fs.readdir d = some l ∧ ∃ e ∈ l, e.name = m ∧ e.isDir = false) := by
  intro ds
  induction ds with
  | nil =>
    intro acc m hm
    rw [pathPhase] at hm
    exact Or.inl hm
  | cons d ds ih =>
    intro acc m hm
    rw [pathPhase] at hm
    have tailCase :
        m ∈ pathPhase p fs ds acc →
        m ∈ acc ∨ (p.isPrefixOf m = true ∧
          ∃ d' ∈ d :: ds, ∃ l, fs.readdir d' = some l ∧
            ∃ e ∈ l, e.name = m ∧ e.isDir = false) := by
      intro h
      rcases ih acc m h with h1 | ⟨hp, d', hd', rest⟩
      · exact Or.inl h1
      · exact Or.inr ⟨hp, d', List.mem_cons_of_mem _ hd', rest⟩
    by_cases hcap : acc.length < 100
    · rw [if_pos hcap] at hm
      match hrd : fs.readdir d with
      | some l =>
        rw [hrd] at hm
        rcases ih _ m hm with h1 | ⟨hp, d', hd', rest⟩
        · rcases pathDirPhase_sound p l acc m h1 with h2 | ⟨hp, e, he, rest⟩
          · exact Or.inl h2
          · exact Or.inr ⟨hp, d, List.mem_cons_self .., l, hrd, e, he, rest⟩
        · exact Or.inr ⟨hp, d', List.mem_cons_of_mem _ hd', rest⟩
      | none =>
        rw [hrd] at hm
        exact tailCase hm
    · rw [if_neg hcap] at hm
      exact Or.inl hm

/-!
Helper lemmas about the line editor.
-/

theorem growPure_buffer (st : EditState) : (growPure st).buffer = st.buffer := by
  unfold growPure
  split <;> rfl

theorem growPure_cursor (st : EditState) : (growPure st).cursor = st.cursor := by
  unfold growPure
  split <;> rfl

theorem insertAtCursor_length (c : Char) (st : EditState)
    (h : st.cursor ≤ st.buffer.length) :
    (insertAtCursor c st).buffer.length = st.buffer.length + 1 := by
  simp [insertAtCursor]
  omega

theorem applyOp_inv (op : EditOp) (st : EditState) (h : BufInv st) :
    BufInv (applyOp op st) := by
  obtain ⟨h1, h2⟩ := h
  have grow : ∀ t : EditState, t.cursor ≤ t.buffer.length →
      t.buffer.length ≤ t.bufsize + 1024 → BufInv (growPure t) := by
    intro t ht1 ht2
    unfold growPure BufInv
    split
    · exact ⟨ht1, by dsimp only; omega⟩
    · exact ⟨ht1, by omega⟩
  cases op with
  | insert c =>
    show BufInv (growPure (insertAtCursor c st))
    have hlen := insertAtCursor_length c st h1
    refine grow _ ?_ ?_
    · rw [hlen]
      show st.cursor + 1 ≤ st.buffer.length + 1
      omega
    · rw [hlen]
      show st.buffer.length + 1 ≤ st.bufsize + 1024
      omega
  | delete =>
    show BufInv (growPure (backspaceOp st))
    refine grow _ ?_ ?_
    · unfold backspaceOp
      split
      · dsimp only
        simp only [List.length_append, List.length_take, List.length_drop]
        omega
      · exact h1
    · unfold backspaceOp
      split
      · dsimp only
        simp only [List.length_append, List.length_take, List.length_drop]
        omega
      · omega
  | moveL =>
    show BufInv (growPure (moveLeft st))
    refine grow _ ?_ ?_
    · unfold moveLeft
      split
      · dsimp only
        omega
      · exact h1
    · unfold moveLeft
      split
      · dsimp only
        omega
      · omega
  | moveR =>
    show BufInv (growPure (moveRight st))
    refine grow _ ?_ ?_
    · unfold moveRight
      split
      · dsimp only
        omega
      · exact h1
    · unfold moveRight
      split
      · dsimp only
        omega
      · omega

theorem lshLoop_nil (fs : Fs) (path : Option Str) (alloc : Nat → Bool)
    (st : EditState) : lshLoop fs path alloc [] st = ⟨.line st.buffer, 1⟩ := by
  rw [lshLoop]

theorem lshLoop_enter (fs : Fs) (path : Option Str) (alloc : Nat → Bool)
    (st : EditState) (rest : List Nat) :
    lshLoop fs path alloc (10 :: rest) st = ⟨.line st.buffer, 1⟩ := by
  rw [lshLoop]
  simp

theorem lshLoop_cons_ne (fs : Fs) (path : Option Str) (alloc : Nat → Bool)
    (st : EditState) (c : Nat) (rest : List Nat) (hc : c ≠ 10) :
    lshLoop fs path alloc (c :: rest) st =
      match growCheck alloc (stepEdit fs path c rest st).2 with
      | none => ⟨.allocAbort, 0⟩
      | some st2 => lshLoop fs path alloc (stepEdit fs path c rest st).1 st2 := by
  rw [lshLoop]
  rw [if_neg hc]

theorem stepEdit_printable (fs : Fs) (path : Option Str) (rest : List Nat)
    (st : EditState) :
    stepEdit fs path 97 rest st = (rest, insertAtCursor 'a' st) := by
  unfold stepEdit
  norm_num

theorem insertAtCursor_at_end (c : Char) (st : EditState)
    (h : st.cursor = st.buffer.length) :
    insertAtCursor c st =
      ⟨st.buffer ++ [c], st.buffer.length + 1, st.bufsize⟩ := by
  unfold insertAtCursor
  rw [h]
  simp

theorem lshLoop_insert_run (fs : Fs) (path : Option Str) (alloc : Nat → Bool) :
    ∀ (n : Nat) (tail : List Nat) (st : EditState),
      st.cursor = st.buffer.length → st.buffer.length + n < st.bufsize →
      lshLoop fs path alloc (List.replicate n 97 ++ tail) st =
        lshLoop fs path alloc tail
          ⟨st.buffer ++ List.replicate n 'a', st.buffer.length + n, st.bufsize⟩ := by
  intro n
  induction n with
  | zero =>
    intro tail st h1 h2
    obtain ⟨b, cur, bs⟩ := st
    simp at h1
    subst h1
    simp
  | succ n ih =>
    intro tail st h1 h2
    rw [List.replicate_succ, List.cons_append,
      lshLoop_cons_ne fs path alloc st 97 _ (by norm_num),
      stepEdit_printable, insertAtCursor_at_end 'a' st h1]
    have hgrow :
        growCheck alloc ⟨st.buffer ++ ['a'], st.buffer.length + 1, st.bufsize⟩ =
          some ⟨st.buffer ++ ['a'], st.buffer.length + 1, st.bufsize⟩ := by
      unfold growCheck
      rw [if_neg]
      dsimp only
      simp only [List.length_append, List.length_cons, List.length_nil]
      omega
    rw [hgrow]
    dsimp only
    have := ih tail ⟨st.buffer ++ ['a'], st.buffer.length + 1, st.bufsize⟩
      (by simp) (by simp; omega)
    rw [this]
    congr 1
    simp [List.replicate_succ, List.append_assoc]
    omega

theorem lshLoop_insert_overflow (fs : Fs) (path : Option Str) (tail : List Nat)
    (st : EditState) (h1 : st.cursor = st.buffer.length)
    (h2 : st.buffer.length + 1 ≥ st.bufsize) :
    lshLoop fs path (fun _ => false) (97 :: tail) st = ⟨.allocAbort, 0⟩ := by
  rw [lshLoop_cons_ne fs path _ st 97 tail (by norm_num), stepEdit_printable,
    insertAtCursor_at_end 'a' st h1]
  have hgrow : growCheck (fun _ => false)
      (⟨st.buffer ++ ['a'], st.buffer.length + 1, st.bufsize⟩ : EditState) = none := by
    unfold growCheck
    rw [if_pos]
    · simp
    · dsimp only
      simp only [List.length_append, List.length_cons, List.length_nil]
      omega
  rw [hgrow]

theorem growPure_eq (t : EditState) :
    growPure t = { t with bufsize := (growPure t).bufsize } := by
  unfold growPure
  split <;> rfl

theorem backspaceOp_bufsize_irrel (t : EditState) (x : Nat) :
    backspaceOp { t with bufsize := x } = { backspaceOp t with bufsize := x } := by
  unfold backspaceOp
  dsimp only
  split <;> rfl

theorem backspace_of_insert (c : Char) (st : EditState)
    (h : st.cursor ≤ st.buffer.length) :
    backspaceOp (insertAtCursor c st) = st := by
  obtain ⟨b, cur, bs⟩ := st
  dsimp only at h
  have hlen : (b.take cur).length = cur := by
    simp
    omega
  have hlen2 : (b.take cur ++ [c]).length = cur + 1 := by
    simp [hlen]
  unfold insertAtCursor backspaceOp
  dsimp only
  rw [if_pos (Nat.succ_pos cur)]
  simp only [EditState.mk.injEq]
  refine ⟨?_, by omega, trivial⟩
  rw [Nat.add_sub_cancel]
  rw [List.append_assoc, List.take_left' hlen, ← List.append_assoc,
    List.drop_left' hlen2]
  exact List.take_append_drop cur b

theorem cons_c_ne_dots (k : Nat) (l : Str) :
    ('c' :: l).take k ≠ ['.'] ∧ ('c' :: l).take k ≠ ['.', '.'] := by
  cases k with
  | zero => constructor <;> simp
  | succ k =>
    rw [List.take_succ_cons]
    constructor <;> intro hEq <;> injection hEq with h1 _ <;>
      exact absurd h1 (by decide)

theorem cdMatchStr_ne_dots (hs : Bool) (sd name : Str) :
    cdMatchStr hs sd name ≠ ['.'] ∧ cdMatchStr hs sd name ≠ ['.', '.'] := by
  unfold cdMatchStr snprintfTrunc
  split
  · exact cons_c_ne_dots _ _
  · exact cons_c_ne_dots _ _

theorem append_slash_ne_dots (sd name : Str) (h : '/' ∈ sd) :
    sd ++ name ≠ ['.'] ∧ sd ++ name ≠ ['.', '.'] := by
  constructor <;> intro hEq <;>
    · have hmem : '/' ∈ sd ++ name := List.mem_append_left name h
      rw [hEq] at hmem
      simp at hmem

/-!
Claim theorems.
-/

/-- C7: for every completion request, the candidate set returned by
`find_matching_commands` contains no duplicate strings — a candidate equal
(by `strcmp`) to one already collected is never added again (src/main.c
lines 142-146, 159-163, 187-189 all guard insertion with `str_in_array`,
which appends at the end, keeping the first occurrence in discovery
order). -/
theorem c7_candidate_set_nodup (p : Str) (fs : Fs) (path : Option Str) :
    (find_matching_commands p fs path).matches_.Nodup := by
  unfold find_matching_commands
  split
  · simp
  · dsimp only
    split
    · split
      · exact dirPhase_nodup _ _ _ _ _ _ List.nodup_nil
      · simp
    · split
      · split
        · exact dirPhase_nodup _ _ _ _ _ _ List.nodup_nil
        · simp
      · split
        · split
          · exact dirPhase_nodup _ _ _ _ _ _ List.nodup_nil
          · simp
        · refine pathPhase_nodup _ _ _ _ ?_
          split
          · exact dirPhase_nodup _ _ _ _ _ _ List.nodup_nil
          · simp

/-- C8: collection stops once 100 candidates have been gathered — the
count is shared between the directory-listing phase and the PATH-search
phase (src/main.c lines 122, 181-184), so the returned set never holds
more than 100 candidates. -/
theorem c8_candidate_cap_100 (p : Str) (fs : Fs) (path : Option Str) :
    (find_matching_commands p fs path).matches_.length ≤ 100 := by
  unfold find_matching_commands
  split
  · simp
  · dsimp only
    split
    · split
      · exact dirPhase_length _ _ _ _ _ _ (by simp)
      · simp
    · split
      · split
        · exact dirPhase_length _ _ _ _ _ _ (by simp)
        · simp
      · split
        · split
          · exact dirPhase_length _ _ _ _ _ _ (by simp)
          · simp
        · refine pathPhase_length _ _ _ _ ?_
          split
          · exact dirPhase_length _ _ _ _ _ _ (by simp)
          · simp

/-- C10: the candidate set never contains the directory entries `.` or
`..`: the directory-listing phase skips them explicitly (src/main.c lines
124-126), and the PATH-search phase excludes them because it filters out
all directory-typed entries (line 186) — provided the filesystem reports
`.` and `..` as directory-typed, which is the hypothesis `h`. -/
theorem c10_no_dot_dotdot (p : Str) (fs : Fs) (path : Option Str)
    (h : ∀ d l, fs.readdir d = some l → ∀ e ∈ l,
      (e.name = ['.'] ∨ e.name = ['.', '.']) → e.isDir = true) :
    ['.'] ∉ (find_matching_commands p fs path).matches_ ∧
    ['.', '.'] ∉ (find_matching_commands p fs path).matches_ := by
  have key : ∀ m ∈ (find_matching_commands p fs path).matches_,
      m ≠ ['.'] ∧ m ≠ ['.', '.'] := by
    intro m hm
    unfold find_matching_commands at hm
    by_cases hp : p.length = 0
    · rw [if_pos hp] at hm
      simp at hm
    · rw [if_neg hp] at hm
      dsimp only at hm
      rcases hL : lastIdxOf '/'
          (if cdPrefix.isPrefixOf p = true then p.drop 3 else p) with _ | i
      · rw [hL] at hm
        dsimp only at hm
        have fromDir : ∀ (is_cd : Bool),
            m ∈ dirPhase is_cd false []
              (if cdPrefix.isPrefixOf p = true then p.drop 3 else p)
              ((fs.readdir ['.']).getD []) [] →
            m ≠ ['.'] ∧ m ≠ ['.', '.'] := by
          intro is_cd hmem
          rcases dirPhase_sound _ _ _ _ _ _ _ hmem with h1 | ⟨e, _, hd1, hd2, _, hrest⟩
          · simp at h1
          · rcases hrest with ⟨_, _, hmEq⟩ | ⟨_, _, hmEq⟩
            · exact hmEq ▸ cdMatchStr_ne_dots _ _ _
            · rw [hmEq]
              unfold plainMatchStr
              simpa using ⟨hd1, hd2⟩
        have acc1Case : m ∈ (match fs.readdir ['.'] with
            | some l => dirPhase (cdPrefix.isPrefixOf p) false []
                (if cdPrefix.isPrefixOf p = true then p.drop 3 else p) l []
            | none => []) →
            m ≠ ['.'] ∧ m ≠ ['.', '.'] := by
          intro hmem
          rcases hR : fs.readdir ['.'] with _ | l
          · rw [hR] at hmem
            simp at hmem
          · rw [hR] at hmem
            dsimp only at hmem
            refine fromDir (cdPrefix.isPrefixOf p) ?_
            rw [hR]
            exact hmem
        by_cases hcd : cdPrefix.isPrefixOf p = true
        · rw [if_pos hcd] at hm
          exact acc1Case hm
        · rw [if_neg hcd] at hm
          rcases path with _ | ps
        <;> dsimp only at hm
          · exact acc1Case hm
          · rcases pathPhase_sound _ _ _ _ _ hm with h1 | ⟨_, d, _, l, hdl, e, hel, hname, hdir⟩
            · exact acc1Case h1
            · constructor <;> intro hEq
              · have := h d l hdl e hel (Or.inl (by rw [hname, hEq]))
                rw [hdir] at this
                exact Bool.false_ne_true this
              · have := h d l hdl e hel (Or.inr (by rw [hname, hEq]))
                rw [hdir] at this
                exact Bool.false_ne_true this
      · rw [hL] at hm
        dsimp only at hm
        rcases hR : fs.readdir
            ((if cdPrefix.isPrefixOf p = true then p.drop 3 else p).take (i + 1))
            with _ | l
        · rw [hR] at hm
          simp at hm
        · rw [hR] at hm
          dsimp only at hm
          rcases dirPhase_sound _ _ _ _ _ _ _ hm with h1 | ⟨e, _, _, _, _, hrest⟩
          · simp at h1
          · have hslash : '/' ∈
                (if cdPrefix.isPrefixOf p = true then p.drop 3 else p).take (i + 1) :=
              lastIdxOf_mem hL
            rcases hrest with ⟨_, _, hmEq⟩ | ⟨_, _, hmEq⟩
            · exact hmEq ▸ cdMatchStr_ne_dots _ _ _
            · rw [hmEq]
              unfold plainMatchStr
              simpa using append_slash_ne_dots _ e.name hslash
  constructor <;> intro hmem
  · exact (key _ hmem).1 rfl
  · exact (key _ hmem).2 rfl

/-- C10 witness: on a filesystem whose listings flag `.` and `..` as
directory-typed, the candidate set for token `a` with PATH `/b` contains
neither `.` nor `..`. -/
theorem c10_witness :
    ['.'] ∉ (find_matching_commands ['a'] fsDots (some ['/', 'b'])).matches_ ∧
    ['.', '.'] ∉ (find_matching_commands ['a'] fsDots (some ['/', 'b'])).matches_ := by
  refine c10_no_dot_dotdot ['a'] fsDots (some ['/', 'b']) ?_
  intro d l hdl e hel hdots
  unfold fsDots at hdl
  dsimp only at hdl
  by_cases h1 : d = ['.']
  · rw [if_pos h1] at hdl
    obtain rfl : l = _ := (Option.some.inj hdl).symm
    fin_cases hel
    · rfl
    · rfl
    · rcases hdots with hq | hq <;> exact absurd hq (by decide)
  · rw [if_neg h1] at hdl
    by_cases h2 : d = ['/', 'b']
    · rw [if_pos h2] at hdl
      obtain rfl : l = _ := (Option.some.inj hdl).symm
      fin_cases hel
      · rfl
      · rfl
      · rcases hdots with hq | hq <;> exact absurd hq (by decide)
    · rw [if_neg h2] at hdl
      exact absurd hdl (by simp)

/-- C2: for every sequence of insert-at-cursor, delete-before-cursor and
cursor-move operations (each followed by the loop's growth check, as in
src/main.c lines 353-388, 419-435, 438-445), the relation
`0 ≤ cursor ≤ length ≤ capacity` holds after each operation — stated as:
it holds after every sequence of operations that starts from a state
satisfying it, and in particular after every prefix of a sequence. -/
theorem c2_edit_invariant (ops : List EditOp) (st : EditState)
    (h : BufInv st) : BufInv (applyOps ops st) := by
  induction ops generalizing st with
  | nil => exact h
  | cons op ops ih => exact ih (applyOp op st) (applyOp_inv op st h)

/-- C2 witness: the initial state of `lsh_read_line` satisfies the
invariant, and so does the result of a concrete mixed sequence of edits. -/
theorem c2_witness :
    BufInv ⟨[], 0, 1024⟩ ∧
    BufInv (applyOps [.insert 'a', .insert 'b', .moveL, .delete, .moveR]
      ⟨[], 0, 1024⟩) := by
  have h0 : BufInv (⟨[], 0, 1024⟩ : EditState) := ⟨by simp, by simp⟩
  exact ⟨h0, c2_edit_invariant _ _ h0⟩

/-- C9: inserting a character at the cursor and then deleting before the
cursor (src/main.c lines 419-426 then 353-359) restores the buffer's
content, length and cursor position (the capacity may have grown, which
the claim does not constrain). -/
theorem c9_insert_then_delete_round_trip (c : Char) (st : EditState)
    (h : st.cursor ≤ st.buffer.length) :
    (applyOp .delete (applyOp (.insert c) st)).buffer = st.buffer ∧
    (applyOp .delete (applyOp (.insert c) st)).buffer.length = st.buffer.length ∧
    (applyOp .delete (applyOp (.insert c) st)).cursor = st.cursor := by
  have e1 : applyOp (.insert c) st = growPure (insertAtCursor c st) := rfl
  have e2 : applyOp .delete (growPure (insertAtCursor c st)) =
      growPure (backspaceOp (growPure (insertAtCursor c st))) := rfl
  rw [e1, e2, growPure_eq (insertAtCursor c st), backspaceOp_bufsize_irrel,
    backspace_of_insert c st h]
  exact ⟨by rw [growPure_buffer], by rw [growPure_buffer], by rw [growPure_cursor]⟩

/-- C9 witness: inserting `z` into `xy` at cursor 1 and deleting restores
buffer `xy` and cursor 1. -/
theorem c9_witness :
    (applyOp .delete (applyOp (.insert 'z') ⟨['x', 'y'], 1, 1024⟩)).buffer =
      ['x', 'y'] ∧
    (applyOp .delete (applyOp (.insert 'z') ⟨['x', 'y'], 1, 1024⟩)).cursor = 1 := by
  have h := c9_insert_then_delete_round_trip 'z' ⟨['x', 'y'], 1, 1024⟩ (by decide)
  exact ⟨h.1, h.2.2⟩

/-- C1 (divergence): on the allocation-failure exit path the terminal is
NOT restored.  Typing 1024 printable characters fills the 1024-byte
buffer; the growth `realloc` (src/main.c lines 438-444) fails and the
process exits via `exit(EXIT_FAILURE)` without ever reaching the
`tcsetattr(..., &old_termios)` at line 350, so the restore count on this
exit path is 0, not 1 as the claim requires. -/
theorem c1_alloc_failure_skips_restore :
    lsh_read_line fsNone none (fun _ => false) (List.replicate 1024 97) =
      ⟨.allocAbort, 0⟩ := by
  unfold lsh_read_line
  have hrep : List.replicate 1024 97 = List.replicate 1023 97 ++ [97] := by
    rw [show (1024 : Nat) = 1023 + 1 by norm_num, List.replicate_succ']
  rw [hrep,
    lshLoop_insert_run fsNone none (fun _ => false) 1023 [97] ⟨[], 0, 1024⟩
      rfl (by norm_num)]
  exact lshLoop_insert_overflow fsNone none []
    ⟨[] ++ List.replicate 1023 'a', 0 + 1023, 1024⟩
    (by dsimp only; rw [List.nil_append, List.length_replicate])
    (by dsimp only; rw [List.nil_append, List.length_replicate])

/-- C3 (counterexample to distinctness): the raw-mode `lsh_read_line`
returns the very same value for immediate end of input as for Enter on an
empty buffer — `c == EOF` and `c == '\n'` share one branch (src/main.c
line 348) — so there is no `EndOfInput` outcome distinct from an empty
line. -/
theorem c3_eof_equals_enter_on_empty :
    lsh_read_line fsNone none (fun _ => true) [] =
      lsh_read_line fsNone none (fun _ => true) [10] ∧
    lsh_read_line fsNone none (fun _ => true) [] = ⟨.line [], 1⟩ := by
  unfold lsh_read_line
  rw [lshLoop_nil, lshLoop_enter]
  exact ⟨rfl, rfl⟩

/-- C3 (amended): end of input is handled exactly like Enter — for any
editor state, exhausting the input stream or reading byte 10 both restore
the terminal once and return the current buffer content as the line. -/
theorem c3_amended_eof_behaves_like_enter (fs : Fs) (path : Option Str)
    (alloc : Nat → Bool) (st : EditState) (rest : List Nat) :
    lshLoop fs path alloc [] st = ⟨.line st.buffer, 1⟩ ∧
    lshLoop fs path alloc (10 :: rest) st = ⟨.line st.buffer, 1⟩ :=
  ⟨lshLoop_nil fs path alloc st, lshLoop_enter fs path alloc st rest⟩

/-- C4 (counterexample): completion acceptance does not replace just the
token after the last whitespace.  With buffer `cd a` and a single
candidate `cd ab` (built by lines 138-140 with the `cd ` prefix baked
in), the accept step (src/main.c lines 393-398) overwrites the whole
buffer, yielding `cd ab`; the claim's token replacement would instead
yield `cd cd ab`. -/
theorem c4_accept_overwrites_whole_buffer :
    (find_matching_commands ['c', 'd', ' ', 'a'] fsCdAb none).matches_ =
      [['c', 'd', ' ', 'a', 'b']] ∧
    (tabStep fsCdAb none ⟨['c', 'd', ' ', 'a'], 4, 1024⟩).buffer =
      ['c', 'd', ' ', 'a', 'b'] ∧
    replace_token_spec ['c', 'd', ' ', 'a'] ['c', 'd', ' ', 'a', 'b'] =
      ['c', 'd', ' ', 'c', 'd', ' ', 'a', 'b'] ∧
    (['c', 'd', ' ', 'a', 'b'] : Str) ≠ ['c', 'd', ' ', 'c', 'd', ' ', 'a', 'b'] := by
  refine ⟨rfl, rfl, rfl, by decide⟩

/-- C4 (amended): when the completion request yields exactly one
candidate, accepting it replaces the ENTIRE buffer with the candidate
text truncated by `strncpy` to `bufsize - 1` characters, and afterward
`cursor = length`. -/
theorem c4_amended_single_match_accept (fs : Fs) (path : Option Str)
    (st : EditState) (m : Str)
    (h : (find_matching_commands st.buffer fs path).matches_ = [m]) :
    (tabStep fs path st).buffer = m.take (st.bufsize - 1) ∧
    (tabStep fs path st).cursor = (tabStep fs path st).buffer.length := by
  unfold tabStep
  rw [h]
  exact ⟨rfl, rfl⟩

/-- C4 witness: the amended acceptance behaviour at the `cd a` input. -/
theorem c4_witness :
    (tabStep fsCdAb none ⟨['c', 'd', ' ', 'a'], 4, 1024⟩).buffer =
      (['c', 'd', ' ', 'a', 'b'] : Str).take 1023 ∧
    (tabStep fsCdAb none ⟨['c', 'd', ' ', 'a'], 4, 1024⟩).cursor =
      (tabStep fsCdAb none ⟨['c', 'd', ' ', 'a'], 4, 1024⟩).buffer.length :=
  c4_amended_single_match_accept fsCdAb none ⟨['c', 'd', ' ', 'a'], 4, 1024⟩
    ['c', 'd', ' ', 'a', 'b'] rfl

/-- C5 (counterexample): the PATH-search phase does not check execute
permission.  With PATH `/b` holding a single NON-executable regular file
`ls`, the token `l` still collects `ls` — the phase filters only on
`d_type != DT_DIR` (src/main.c lines 185-186), so the claim's
"which the calling user may execute" is false of the code. -/
theorem c5_nonexecutable_candidate_collected :
    (find_matching_commands ['l'] fsPathLs (some ['/', 'b'])).matches_ =
      [['l', 's']] ∧
    fsPathLs.readdir ['/', 'b'] = some [⟨['l', 's'], false, false⟩] ∧
    (Dirent.mk ['l', 's'] false false).exec = false :=
  ⟨rfl, rfl, rfl⟩

/-- C5 (amended): for a token without `cd ` prefix and without a slash,
the PATH-search phase visits the PATH directories in listed order and
collects exactly names with the token as a prefix whose entries are not
directory-typed (execute permission is never consulted); candidates
already collected stay in place (the accumulator is a prefix of the
result) and are never added again (no duplicates). -/
theorem c5_amended_path_search_no_exec_filter (p : Str) (fs : Fs)
    (ds : List Str) (acc : List Str) :
    acc <+: pathPhase p fs ds acc ∧
    (acc.Nodup → (pathPhase p fs ds acc).Nodup) ∧
    (∀ m ∈ pathPhase p fs ds acc, m ∈ acc ∨
      (p.isPrefixOf m = true ∧
        ∃ d ∈ ds, ∃ l, fs.readdir d = some l ∧
          ∃ e ∈ l, e.name = m ∧ e.isDir = false)) :=
  ⟨pathPhase_extendsAcc p fs ds acc,
   fun h => pathPhase_nodup p fs ds acc h,
   fun m hm => pathPhase_sound p fs ds acc m hm⟩

/-- C5 witness: the amended PATH-search facts at the concrete `/b`
fixture, with the accumulator's `Nodup` hypothesis discharged. -/
theorem c5_witness :
    ([] : List Str) <+: pathPhase ['l'] fsPathLs [['/', 'b']] [] ∧
    (pathPhase ['l'] fsPathLs [['/', 'b']] []).Nodup := by
  have h := c5_amended_path_search_no_exec_filter ['l'] fsPathLs [['/', 'b']] []
  exact ⟨h.1, h.2.1 List.nodup_nil⟩

/-- C6 (counterexample): for a non-`cd` token the directory-listing phase
EXCLUDES directories (src/main.c line 150) and never appends a path
separator to a stored candidate: with listing `{foo/ (dir), fob (file)}`
and token `fo`, the candidate set is exactly `[fob]` — neither `foo` nor
`foo/` appears. -/
theorem c6_directory_entries_excluded :
    (find_matching_commands ['f', 'o'] fsFooFob none).matches_ =
      [['f', 'o', 'b']] ∧
    fsFooFob.readdir ['.'] =
      some [⟨['f', 'o', 'o'], true, true⟩, ⟨['f', 'o', 'b'], false, true⟩] ∧
    ['f', 'o', 'o'] ∉ (find_matching_commands ['f', 'o'] fsFooFob none).matches_ ∧
    ['f', 'o', 'o', '/'] ∉
      (find_matching_commands ['f', 'o'] fsFooFob none).matches_ :=
  ⟨rfl, rfl, by decide, by decide⟩

/-- C6 (amended): for a token without `cd ` prefix that contains a path
separator, every candidate is the typed directory-prefix repeated
verbatim followed by the name of a NON-directory entry of that directory
whose name starts with the token's basename; nothing is appended after
the entry name. -/
theorem c6_amended_listing_nondirs_verbatim (p : Str) (fs : Fs)
    (path : Option Str) (i : Nat)
    (hcd : cdPrefix.isPrefixOf p = false)
    (hsl : lastIdxOf '/' p = some i) :
    ∀ m ∈ (find_matching_commands p fs path).matches_,
      ∃ l, fs.readdir (p.take (i + 1)) = some l ∧
        ∃ e ∈ l, e.isDir = false ∧
          (p.drop (i + 1)).isPrefixOf e.name = true ∧
          m = p.take (i + 1) ++ e.name := by
  intro m hm
  unfold find_matching_commands at hm
  by_cases hp : p.length = 0
  · rw [if_pos hp] at hm
    simp at hm
  · rw [if_neg hp] at hm
    dsimp only at hm
    rw [hcd] at hm
    simp only [Bool.false_eq_true, if_false] at hm
    rw [hsl] at hm
    dsimp only at hm
    rcases hR : fs.readdir (p.take (i + 1)) with _ | l
    · rw [hR] at hm
      simp at hm
    · rw [hR] at hm
      dsimp only at hm
      rcases dirPhase_sound _ _ _ _ _ _ _ hm with h1 | ⟨e, he, _, _, hpre, hrest⟩
      · simp at h1
      · rcases hrest with ⟨hfalse, _, _⟩ | ⟨_, hdir, hmEq⟩
        · exact absurd hfalse (by simp_all)
        · refine ⟨l, rfl, e, he, hdir, hpre, ?_⟩
          rw [hmEq]
          rfl

/-- C6 witness: applying the amended listing theorem at the fixture
`x/` with token `x/a` and candidate `x/ab` shows the listing of the typed
directory prefix `x/` was consulted. -/
theorem c6_witness : fsXdir.readdir (['x', '/', 'a'].take 2) ≠ none := by
  obtain ⟨l, hl, _⟩ :=
    c6_amended_listing_nondirs_verbatim ['x', '/', 'a'] fsXdir none 1
      rfl rfl ['x', '/', 'a', 'b'] (by decide)
  rw [hl]
  simp
